import Mathlib

set_option maxRecDepth 200000

set_option maxHeartbeats 1000000

/-!
Verification of the dataset-build pipeline of the AHKv2_Finetune repository.

The definitions below are a shallow embedding of the Python functions in
`src/build_dataset.py` (`dedupe`, `split_records`, the per-file core of
`iterate_snippets`) and `src/data_prep.py` (`to_harmony`).

Modelling conventions:
* `hashlib.sha256(...).hexdigest()` is embedded as a full executable SHA-256
  over `Nat` byte lists (FIPS 180-4), producing the lowercase hex digest of
  the UTF-8 encoding of a string, exactly as the Python code computes it.
* Python `dict` metadata is embedded as an association list
  `List (String × MetaValue)`; `{**m, k: v}` replaces the first occurrence
  of `k` in place or appends `(k, v)` at the end, matching dict semantics.
* `random.Random(seed)` is embedded by the stream of `_randbelow` draws it
  produces: a function `draw : Nat → Nat`, determined by the seed alone.
  `random.shuffle` is the Fisher-Yates loop of CPython, with the draw at
  loop index `i` taken modulo `i + 1` (the `_randbelow(i + 1)` contract).
* CLI ratios (Python floats, which are rationals) are embedded as `ℚ`;
  `int(total * r)` for `r ≥ 0` is `Int.toNat ⌊total * r⌋`.
* `raise ValueError(msg)` is embedded as `Except.error msg`: an error result
  means the run aborts with no split produced.
* Python `str.strip()` / `rstrip()` / `lstrip(chars)` are embedded on
  `List Char` with the CPython whitespace set (which does NOT contain
  U+FEFF, the byte-order mark).
-/

/-! ## SHA-256 over byte lists (model of `hashlib.sha256(...).hexdigest()`) -/

def rotr32 (n x : Nat) : Nat := (x / 2 ^ n + x % 2 ^ n * 2 ^ (32 - n)) % 2 ^ 32

def shr32 (n x : Nat) : Nat := x / 2 ^ n

def not32 (x : Nat) : Nat := 4294967295 ^^^ x

def smallSigma0 (x : Nat) : Nat := (rotr32 7 x ^^^ rotr32 18 x) ^^^ shr32 3 x

def smallSigma1 (x : Nat) : Nat := (rotr32 17 x ^^^ rotr32 19 x) ^^^ shr32 10 x

def bigSigma0 (x : Nat) : Nat := (rotr32 2 x ^^^ rotr32 13 x) ^^^ rotr32 22 x

def bigSigma1 (x : Nat) : Nat := (rotr32 6 x ^^^ rotr32 11 x) ^^^ rotr32 25 x

def sha256K : List Nat :=
  [1116352408, 1899447441, 3049323471, 3921009573, 961987163,
   1508970993, 2453635748, 2870763221, 3624381080, 310598401,
   607225278, 1426881987, 1925078388, 2162078206, 2614888103,
   3248222580, 3835390401, 4022224774, 264347078, 604807628,
   770255983, 1249150122, 1555081692, 1996064986, 2554220882,
   2821834349, 2952996808, 3210313671, 3336571891, 3584528711,
   113926993, 338241895, 666307205, 773529912, 1294757372,
   1396182291, 1695183700, 1986661051, 2177026350, 2456956037,
   2730485921, 2820302411, 3259730800, 3345764771, 3516065817,
   3600352804, 4094571909, 275423344, 430227734, 506948616,
   659060556, 883997877, 958139571, 1322822218, 1537002063,
   1747873779, 1955562222, 2024104815, 2227730452, 2361852424,
   2428436474, 2756734187, 3204031479, 3329325298]

def sha256InitH : List Nat :=
  [1779033703, 3144134277, 1013904242, 2773480762, 1359893119,
   2600822924, 528734635, 1541459225]

def extendW : Nat → List Nat → List Nat
  | 0, w => w
  | n+1, w =>
    let i := w.length
    let wNew := (w.getD (i - 16) 0 + smallSigma0 (w.getD (i - 15) 0) + w.getD (i - 7) 0 +
                 smallSigma1 (w.getD (i - 2) 0)) % 2 ^ 32
    extendW n (w ++ [wNew])

def roundStep (st : List Nat) (kw : Nat × Nat) : List Nat :=
  let a := st.getD 0 0
  let b := st.getD 1 0
  let c := st.getD 2 0
  let d := st.getD 3 0
  let e := st.getD 4 0
  let f := st.getD 5 0
  let g := st.getD 6 0
  let h := st.getD 7 0
  let t1 := (h + bigSigma1 e + ((e &&& f) ^^^ (not32 e &&& g)) + kw.1 + kw.2) % 2 ^ 32
  let t2 := (bigSigma0 a + (((a &&& b) ^^^ (a &&& c)) ^^^ (b &&& c))) % 2 ^ 32
  [(t1 + t2) % 2 ^ 32, a, b, c, (d + t1) % 2 ^ 32, e, f, g]

def compressBlock (h : List Nat) (block : List Nat) : List Nat :=
  let w := extendW 48 block
  let st := (sha256K.zip w).foldl roundStep h
  List.zipWith (fun x y => (x + y) % 2 ^ 32) h st

def bytesToWords : Nat → List Nat → List Nat
  | 0, _ => []
  | n+1, l => (l.getD 0 0 * 2 ^ 24 + l.getD 1 0 * 2 ^ 16 + l.getD 2 0 * 2 ^ 8 + l.getD 3 0) ::
      bytesToWords n (l.drop 4)

def splitBlocks : Nat → List Nat → List (List Nat)
  | 0, _ => []
  | n+1, l => bytesToWords 16 (l.take 64) :: splitBlocks n (l.drop 64)

def beBytes (k n : Nat) : List Nat := (List.range k).map (fun i => n / 2 ^ ((k - 1 - i) * 8) % 256)

def padMessage (msg : List Nat) : List Nat :=
  let L := msg.length
  let zeros := (120 - (L + 1) % 64) % 64
  msg ++ 128 :: (List.replicate zeros 0 ++ beBytes 8 (8 * L))

/-- UTF-8 encoding of a Unicode scalar value (model of Python `str.encode("utf-8")`
applied character by character). -/
def utf8EncodeCharNat (n : Nat) : List Nat :=
  if n < 0x80 then [n]
  else if n < 0x800 then [0xc0 + n / 0x40, 0x80 + n % 0x40]
  else if n < 0x10000 then [0xe0 + n / 0x1000, 0x80 + n / 0x40 % 0x40, 0x80 + n % 0x40]
  else [0xf0 + n / 0x40000, 0x80 + n / 0x1000 % 0x40, 0x80 + n / 0x40 % 0x40, 0x80 + n % 0x40]

def utf8Bytes (s : String) : List Nat := s.data.flatMap (fun c => utf8EncodeCharNat c.toNat)

def sha256Words (msg : List Nat) : List Nat :=
  let padded := padMessage msg
  (splitBlocks (padded.length / 64) padded).foldl compressBlock sha256InitH

def hexDigit (n : Nat) : Char := Char.ofNat (if n < 10 then 48 + n else 87 + n)

def wordHex (n : Nat) : List Char := (List.range 8).map (fun i => hexDigit (n / 2 ^ ((7 - i) * 4) % 16))

/-- Model of `hashlib.sha256(s.encode("utf-8")).hexdigest()` for a string `s`. -/
def sha256hex (s : String) : String := String.mk ((sha256Words (utf8Bytes s)).flatMap wordHex)

/-! ## Data model: `SnippetRecord` (src/build_dataset.py, lines 39-43) -/

/-- A metadata value: the Python metadata dicts of `build_dataset.py` hold
strings and ints. -/
inductive MetaValue where
  | str : String → MetaValue
  | int : Int → MetaValue
deriving DecidableEq

/-- Model of a Python `dict` as an association list. -/
abbrev Metadata := List (String × MetaValue)

/-- Model of the Python dict update: `dictInsert k v m` is `{**m, k: v}`: if `k` is present its (first)
binding is replaced in place, otherwise `(k, v)` is appended at the end. -/
def dictInsert (k : String) (v : MetaValue) : Metadata → Metadata
  | [] => [(k, v)]
  | (q, w) :: rest => if q = k then (k, v) :: rest else (q, w) :: dictInsert k v rest

/-- Model of `m.get(k)`. -/
def dictLookup (k : String) : Metadata → Option MetaValue
  | [] => none
  | (q, w) :: rest => if q = k then some w else dictLookup k rest

/-- Model of `k in m`. -/
def dictHasKey (k : String) (m : Metadata) : Bool := m.any (fun p => p.1 == k)

/-- The `SnippetRecord` dataclass. -/
structure SnippetRecord where
  prompt : String
  response : String
  metadata : Metadata
deriving DecidableEq

/-! ## `dedupe` (src/build_dataset.py, lines 159-175) -/

/-- The loop of `dedupe`: `seen` is the set of digests seen so far
(modelled as a list, membership only). For each record, the SHA-256 hex
digest of its response is computed; a record whose digest was already seen
is dropped, otherwise an enriched copy with `"sha256"` set in its metadata
is kept and the digest added to `seen`. -/
def dedupeAux (seen : List String) : List SnippetRecord → List SnippetRecord
  | [] => []
  | rec :: rest =>
    let digest := sha256hex rec.response
    if digest ∈ seen then dedupeAux seen rest
    else { prompt := rec.prompt
           response := rec.response
           metadata := dictInsert "sha256" (MetaValue.str digest) rec.metadata } ::
         dedupeAux (digest :: seen) rest

/-- Model of `dedupe(records)`. -/
def dedupe (records : List SnippetRecord) : List SnippetRecord := dedupeAux [] records

/-! ## `split_records` (src/build_dataset.py, lines 178-198) -/

/-- One Python `x[i], x[j] = x[j], x[i]` swap on a list; out-of-range
indices leave the list unchanged (never hit by the shuffle loop). -/
def listSwap {α : Type} (l : List α) (i j : Nat) : List α :=
  match l[i]?, l[j]? with
  | some a, some b => (l.set i b).set j a
  | _, _ => l

/-- CPython `random.shuffle`: `for i in reversed(range(1, len(x))):
j = _randbelow(i + 1); x[i], x[j] = x[j], x[i]`. `draw i` is the raw draw
of the PRNG at loop index `i`; `% (i + 1)` is the `_randbelow` contract. -/
def pyShuffleAux {α : Type} (draw : Nat → Nat) : Nat → List α → List α
  | 0, l => l
  | i+1, l => pyShuffleAux draw i (listSwap l (i + 1) (draw (i + 1) % (i + 2)))

def pyShuffle {α : Type} (draw : Nat → Nat) (l : List α) : List α :=
  pyShuffleAux draw (l.length - 1) l

/-- Model of `split_records(records, val_ratio, test_ratio, seed)`, with the ratios
as exact rationals (`v` = val-ratio, `t` = test-ratio) and the seeded PRNG
as its draw stream `draw`. Raising `ValueError` is `Except.error`. -/
def split_records (records : List SnippetRecord) (v t : ℚ) (draw : Nat → Nat) :
    Except String (List SnippetRecord × List SnippetRecord × List SnippetRecord) :=
  if ¬ (0 ≤ v ∧ v < 1) then Except.error "val-ratio must be in [0, 1)"
  else if ¬ (0 ≤ t ∧ t < 1) then Except.error "test-ratio must be in [0, 1)"
  else if 1 ≤ v + t then Except.error "val-ratio + test-ratio must be less than 1"
  else
    let shuffled := pyShuffle draw records
    let total := shuffled.length
    let valCount := (⌊(total : ℚ) * v⌋).toNat
    let testCount := (⌊(total : ℚ) * t⌋).toNat
    let trainCount := total - valCount - testCount
    Except.ok (shuffled.take trainCount,
               (shuffled.drop trainCount).take valCount,
               shuffled.drop (trainCount + valCount))

/-! ## Python string stripping and the snippet response
(src/build_dataset.py, lines 74-99) -/

/-- The CPython `str.isspace` / bare-`strip` whitespace code points.
U+FEFF (the byte-order mark) is NOT among them. -/
def pySpaceCodes : List Nat :=
  [9, 10, 11, 12, 13, 28, 29, 30, 31, 32, 0x85, 0xa0, 0x1680,
   0x2000, 0x2001, 0x2002, 0x2003, 0x2004, 0x2005, 0x2006, 0x2007, 0x2008, 0x2009, 0x200a,
   0x2028, 0x2029, 0x202f, 0x205f, 0x3000]

def isPySpace (c : Char) : Bool := pySpaceCodes.contains c.toNat

/-- Python `lstrip` on characters satisfying `p`. -/
def pyLstrip (p : Char → Bool) (l : List Char) : List Char := l.dropWhile p

/-- Python `rstrip` on characters satisfying `p`. -/
def pyRstrip (p : Char → Bool) (l : List Char) : List Char := (l.reverse.dropWhile p).reverse

/-- Python bare `s.strip()`. -/
def pyStripStr (s : String) : String := String.mk (pyRstrip isPySpace (pyLstrip isPySpace s.data))

/-- The byte-order mark U+FEFF. -/
def BOM : Char := Char.ofNat 0xfeff

/-- The response computed by `iterate_snippets` for one file whose decoded
text is `raw`: `raw_text = raw_text.lstrip("﻿")`;
`snippet = raw_text.strip()`; empty snippets are skipped (`none`);
otherwise the response is `snippet.rstrip() + "\n"`. -/
def snippetResponse (raw : String) : Option String :=
  let lstripped := raw.data.dropWhile (fun c => c == BOM)
  let snippet := pyRstrip isPySpace (pyLstrip isPySpace lstripped)
  if snippet = [] then none
  else some (String.mk (pyRstrip isPySpace snippet ++ ['\n']))

/-! ## `to_harmony` (src/data_prep.py, lines 6-13) -/

structure Message where
  role : String
  content : String
deriving DecidableEq

structure Harmony where
  messages : List Message
deriving DecidableEq

/-- Model of `to_harmony(prompt, response)`. -/
def to_harmony (prompt response : String) : Harmony :=
  { messages :=
      [{ role := "system", content := "Reasoning medium. You are a helpful assistant." },
       { role := "user", content := pyStripStr prompt },
       { role := "assistant", content := pyStripStr response }] }

/-! ## Helper lemmas: a Python list swap is a permutation -/

theorem cons_set_perm {α : Type} (x : α) :
    ∀ (t : List α) (k : Nat) (b : α), t[k]? = some b →
      List.Perm (b :: t.set k x) (x :: t) := by
  intro t
  induction t with
  | nil => intro k b h; simp at h
  | cons c t ih =>
    intro k b h
    cases k with
    | zero =>
      obtain rfl : c = b := by simpa using h
      exact List.Perm.swap x _ t
    | succ m =>
      simp at h
      have hperm := ih m b h
      have h1 : List.Perm (b :: c :: t.set m x) (c :: b :: t.set m x) :=
        List.Perm.swap c b (t.set m x)
      have h2 : List.Perm (c :: b :: t.set m x) (c :: x :: t) := List.Perm.cons c hperm
      have h3 : List.Perm (c :: x :: t) (x :: c :: t) := List.Perm.swap x c t
      exact ((h1.trans h2).trans h3)

theorem listSwap_perm {α : Type} :
    ∀ (l : List α) (i j : Nat), List.Perm (listSwap l i j) l := by
  intro l
  induction l with
  | nil => intro i j; simp [listSwap]
  | cons x t ih =>
    intro i j
    cases i with
    | zero =>
      cases j with
      | zero => simp [listSwap]
      | succ m =>
        rcases h2 : t[m]? with _ | b
        · simp [listSwap, h2]
        · simpa [listSwap, h2] using cons_set_perm x t m b h2
    | succ k =>
      cases j with
      | zero =>
        rcases h1 : t[k]? with _ | a
        · simp [listSwap, h1]
        · simpa [listSwap, h1] using cons_set_perm x t k a h1
      | succ m =>
        rcases h1 : t[k]? with _ | a
        · simp [listSwap, h1]
        · rcases h2 : t[m]? with _ | b
          · simp [listSwap, h1, h2]
          · have := ih k m
            simp only [listSwap, List.getElem?_cons_succ, h1, h2] at this ⊢
            exact List.Perm.cons x this

theorem pyShuffleAux_perm {α : Type} (draw : Nat → Nat) :
    ∀ (n : Nat) (l : List α), List.Perm (pyShuffleAux draw n l) l := by
  intro n
  induction n with
  | zero => intro l; exact List.Perm.refl l
  | succ i ih =>
    intro l
    exact (ih (listSwap l (i + 1) (draw (i + 1) % (i + 2)))).trans (listSwap_perm l _ _)

theorem pyShuffle_perm {α : Type} (draw : Nat → Nat) (l : List α) :
    List.Perm (pyShuffle draw l) l :=
  pyShuffleAux_perm draw (l.length - 1) l

theorem take_drop_length_sum {α : Type} (l : List α) (a b : Nat) :
    (l.take a).length + ((l.drop a).take b).length + (l.drop (a + b)).length = l.length := by
  simp only [List.length_take, List.length_drop]
  omega

theorem take_drop_append {α : Type} (l : List α) (a b : Nat) :
    l.take a ++ ((l.drop a).take b ++ l.drop (a + b)) = l := by
  have h1 : l.drop (a + b) = (l.drop a).drop b := by
    rw [List.drop_drop, Nat.add_comm]
  rw [h1, List.take_append_drop, List.take_append_drop]

/-- A sample record list used to instantiate universally quantified theorems. -/
def rsEx : List SnippetRecord :=
  [{ prompt := "p1", response := "alpha", metadata := [("k", MetaValue.int 1)] },
   { prompt := "p2", response := "beta", metadata := [] },
   { prompt := "p3", response := "alpha", metadata := [] }]

/-- C1: for every record list and every valid ratio pair
(0 ≤ val-ratio < 1, 0 ≤ test-ratio < 1, val-ratio + test-ratio < 1),
`split_records` returns three lists whose lengths sum to the length of the
input list. -/
theorem split_records_length_sum (records : List SnippetRecord) (v t : ℚ) (draw : Nat → Nat)
    (hv : 0 ≤ v ∧ v < 1) (ht : 0 ≤ t ∧ t < 1) (hvt : v + t < 1) :
    ∃ train val test, split_records records v t draw = Except.ok (train, val, test) ∧
      train.length + val.length + test.length = records.length := by
  unfold split_records
  rw [if_neg (not_not_intro hv), if_neg (not_not_intro ht), if_neg (not_le.mpr hvt)]
  refine ⟨_, _, _, rfl, ?_⟩
  have hlen : (pyShuffle draw records).length = records.length :=
    (pyShuffle_perm draw records).length_eq
  rw [← hlen]
  exact take_drop_length_sum (pyShuffle draw records) _ _

theorem split_records_length_sum_witness :
    ((0 : ℚ) ≤ 1/10 ∧ (1/10 : ℚ) < 1) ∧ ((0 : ℚ) ≤ 1/5 ∧ (1/5 : ℚ) < 1) ∧
    ((1/10 : ℚ) + 1/5 < 1) ∧
    ∃ train val test,
      split_records rsEx (1/10) (1/5) (fun _ => 0) = Except.ok (train, val, test) ∧
      train.length + val.length + test.length = rsEx.length :=
  ⟨by norm_num, by norm_num, by norm_num,
   split_records_length_sum rsEx (1/10) (1/5) (fun _ => 0)
     (by norm_num) (by norm_num) (by norm_num)⟩

/-- C3: `split_records` is deterministic: the seeded PRNG of
`random.Random(seed)` is a pure function of the seed, embedded as its draw
stream; runs with the same records, ratios, and draw stream return
identical train, val, and test lists. -/
theorem split_records_deterministic (records : List SnippetRecord) (v t : ℚ)
    (d1 d2 : Nat → Nat) (h : ∀ i, d1 i = d2 i) :
    split_records records v t d1 = split_records records v t d2 := by
  have hd : d1 = d2 := funext h
  rw [hd]

theorem split_records_deterministic_witness :
    (∀ i : Nat, i + 0 = i) ∧
    split_records rsEx (1/10) (1/5) (fun i => i + 0) =
      split_records rsEx (1/10) (1/5) (fun i => i) :=
  ⟨fun i => Nat.add_zero i,
   split_records_deterministic rsEx (1/10) (1/5) (fun i => i + 0) (fun i => i)
     (fun i => Nat.add_zero i)⟩

/-- C4: `split_records` raises `ValueError` (returns `Except.error`) if and
only if val-ratio is outside [0, 1), or test-ratio is outside [0, 1), or
their sum is at least 1; on an error no split is produced, and for all
other ratio pairs it returns normally (`Except.ok`). -/
theorem split_records_error_iff (records : List SnippetRecord) (v t : ℚ) (draw : Nat → Nat) :
    ((∃ e, split_records records v t draw = Except.error e) ↔
      (¬ (0 ≤ v ∧ v < 1) ∨ ¬ (0 ≤ t ∧ t < 1) ∨ 1 ≤ v + t)) ∧
    ((∃ res, split_records records v t draw = Except.ok res) ↔
      ¬ (¬ (0 ≤ v ∧ v < 1) ∨ ¬ (0 ≤ t ∧ t < 1) ∨ 1 ≤ v + t)) := by
  unfold split_records
  split_ifs with h1 h2 h3 <;> simp_all

/-- C6: for every record list, valid ratio pair, and seed (draw stream),
the concatenation train ++ val ++ test returned by `split_records` is a
permutation of the input list. -/
theorem split_records_perm (records : List SnippetRecord) (v t : ℚ) (draw : Nat → Nat)
    (hv : 0 ≤ v ∧ v < 1) (ht : 0 ≤ t ∧ t < 1) (hvt : v + t < 1) :
    ∃ train val test, split_records records v t draw = Except.ok (train, val, test) ∧
      List.Perm (train ++ (val ++ test)) records := by
  unfold split_records
  rw [if_neg (not_not_intro hv), if_neg (not_not_intro ht), if_neg (not_le.mpr hvt)]
  refine ⟨_, _, _, rfl, ?_⟩
  rw [take_drop_append]
  exact pyShuffle_perm draw records

theorem split_records_perm_witness :
    ((0 : ℚ) ≤ 1/4 ∧ (1/4 : ℚ) < 1) ∧ ((0 : ℚ) ≤ 1/4 ∧ (1/4 : ℚ) < 1) ∧
    ((1/4 : ℚ) + 1/4 < 1) ∧
    ∃ train val test,
      split_records rsEx (1/4) (1/4) (fun i => i) = Except.ok (train, val, test) ∧
      List.Perm (train ++ (val ++ test)) rsEx :=
  ⟨by norm_num, by norm_num, by norm_num,
   split_records_perm rsEx (1/4) (1/4) (fun i => i)
     (by norm_num) (by norm_num) (by norm_num)⟩

/-! ## Helper lemmas: dict operations -/

theorem dictInsert_idem (k : String) (v : MetaValue) (m : Metadata) :
    dictInsert k v (dictInsert k v m) = dictInsert k v m := by
  induction m with
  | nil => simp [dictInsert]
  | cons p rest ih =>
    obtain ⟨q, w⟩ := p
    by_cases hq : q = k
    · simp [dictInsert, hq]
    · simp [dictInsert, hq, ih]

theorem dictLookup_insert_self (k : String) (v : MetaValue) (m : Metadata) :
    dictLookup k (dictInsert k v m) = some v := by
  induction m with
  | nil => simp [dictInsert, dictLookup]
  | cons p rest ih =>
    obtain ⟨q, w⟩ := p
    by_cases hq : q = k
    · simp [dictInsert, dictLookup, hq]
    · simp [dictInsert, dictLookup, hq, ih]

theorem dictLookup_insert_ne (k q : String) (v : MetaValue) (m : Metadata) (h : q ≠ k) :
    dictLookup q (dictInsert k v m) = dictLookup q m := by
  have h1 : ¬ q = k := h
  have h2 : ¬ k = q := fun he => h1 he.symm
  induction m with
  | nil => simp [dictInsert, dictLookup, h1, h2]
  | cons p rest ih =>
    obtain ⟨a, w⟩ := p
    by_cases ha : a = k
    · subst ha
      simp [dictInsert, dictLookup, h1, h2]
    · simp [dictInsert, dictLookup, ha, ih]

theorem dictInsert_not_hasKey (k : String) (v : MetaValue) (m : Metadata)
    (h : dictHasKey k m = false) :
    dictInsert k v m = m ++ [(k, v)] := by
  induction m with
  | nil => simp [dictInsert]
  | cons p rest ih =>
    obtain ⟨q, w⟩ := p
    simp only [dictHasKey, List.any_cons, Bool.or_eq_false_iff, beq_eq_false_iff_ne] at h
    simp [dictInsert, h.1, ih (by simpa [dictHasKey] using h.2)]

/-! ## Helper lemmas: the dedupe loop invariant -/

/-- Every record produced by the dedupe loop has a digest unseen at entry
and arises from an input record whose prompt and response it copies, its
metadata being the input metadata with `"sha256"` set to the digest. -/
theorem dedupeAux_mem :
    ∀ (rs : List SnippetRecord) (seen : List String) (r : SnippetRecord),
      r ∈ dedupeAux seen rs →
      sha256hex r.response ∉ seen ∧
      ∃ r0 ∈ rs, r.prompt = r0.prompt ∧ r.response = r0.response ∧
        r.metadata = dictInsert "sha256" (MetaValue.str (sha256hex r0.response)) r0.metadata := by
  intro rs
  induction rs with
  | nil => intro seen r h; simp [dedupeAux] at h
  | cons rec rest ih =>
    intro seen r h
    simp only [dedupeAux] at h
    by_cases hd : sha256hex rec.response ∈ seen
    · rw [if_pos hd] at h
      obtain ⟨hn, r0, hmem, hp⟩ := ih seen r h
      exact ⟨hn, r0, List.mem_cons_of_mem _ hmem, hp⟩
    · rw [if_neg hd] at h
      rcases List.mem_cons.mp h with heq | hmem
      · subst heq
        exact ⟨hd, rec, List.mem_cons_self _ _, rfl, rfl, rfl⟩
      · obtain ⟨hn, r0, hmem0, hp⟩ := ih _ r hmem
        have hn2 : sha256hex r.response ∉ seen := fun hx => hn (List.mem_cons_of_mem _ hx)
        exact ⟨hn2, r0, List.mem_cons_of_mem _ hmem0, hp⟩

/-- The digests of the records produced by the dedupe loop are pairwise
distinct. -/
theorem dedupeAux_pairwise_hash :
    ∀ (rs : List SnippetRecord) (seen : List String),
      (dedupeAux seen rs).Pairwise
        (fun a b => sha256hex a.response ≠ sha256hex b.response) := by
  intro rs
  induction rs with
  | nil => intro seen; simp [dedupeAux]
  | cons rec rest ih =>
    intro seen
    simp only [dedupeAux]
    by_cases hd : sha256hex rec.response ∈ seen
    · rw [if_pos hd]; exact ih seen
    · rw [if_neg hd]
      refine List.pairwise_cons.mpr ⟨?_, ih _⟩
      intro b hb hcontra
      have hnotin := (dedupeAux_mem rest _ b hb).1
      apply hnotin
      rw [← hcontra]
      exact List.mem_cons_self _ _

/-- Every record produced by the dedupe loop is the first record of the
input whose response matches its own. -/
theorem dedupeAux_first :
    ∀ (rs : List SnippetRecord) (seen : List String) (r : SnippetRecord),
      r ∈ dedupeAux seen rs →
      ∃ r0, rs.find? (fun x => x.response == r.response) = some r0 ∧
        r.prompt = r0.prompt ∧ r.response = r0.response := by
  intro rs
  induction rs with
  | nil => intro seen r h; simp [dedupeAux] at h
  | cons rec rest ih =>
    intro seen r h
    simp only [dedupeAux] at h
    by_cases hd : sha256hex rec.response ∈ seen
    · rw [if_pos hd] at h
      have hnotin := (dedupeAux_mem rest seen r h).1
      have hne : rec.response ≠ r.response := by
        intro he
        apply hnotin
        rw [← he]
        exact hd
      obtain ⟨r0, hf, hp, hr⟩ := ih seen r h
      refine ⟨r0, ?_, hp, hr⟩
      rw [List.find?_cons_of_neg _ (by simp [hne])]
      exact hf
    · rw [if_neg hd] at h
      rcases List.mem_cons.mp h with heq | hmem
      · subst heq
        refine ⟨rec, ?_, rfl, rfl⟩
        rw [List.find?_cons_of_pos _ (by simp)]
      · have hnotin := (dedupeAux_mem rest _ r hmem).1
        have hne : rec.response ≠ r.response := by
          intro he
          apply hnotin
          rw [← he]
          exact List.mem_cons_self _ _
        obtain ⟨r0, hf, hp, hr⟩ := ih _ r hmem
        refine ⟨r0, ?_, hp, hr⟩
        rw [List.find?_cons_of_neg _ (by simp [hne])]
        exact hf

/-- C2: the output of `dedupe` contains at most one record per distinct
response string (output responses are pairwise distinct), and each kept
record copies the prompt and response of the first record of the input
whose response matches. -/
theorem dedupe_unique_first (records : List SnippetRecord) :
    (dedupe records).Pairwise (fun a b => a.response ≠ b.response) ∧
    ∀ r ∈ dedupe records,
      ∃ r0, records.find? (fun x => x.response == r.response) = some r0 ∧
        r.prompt = r0.prompt ∧ r.response = r0.response := by
  constructor
  · exact (dedupeAux_pairwise_hash records []).imp
      (fun hne he => hne (congrArg sha256hex he))
  · intro r hr
    exact dedupeAux_first records [] r hr

/-- The first record of `rsEx` as enriched by `dedupe`. -/
def recW : SnippetRecord :=
  { prompt := "p1", response := "alpha",
    metadata := [("k", MetaValue.int 1), ("sha256", MetaValue.str (sha256hex "alpha"))] }

theorem dedupe_unique_first_witness :
    recW ∈ dedupe rsEx ∧
    ∃ r0, rsEx.find? (fun x => x.response == recW.response) = some r0 ∧
      recW.prompt = r0.prompt ∧ recW.response = r0.response :=
  ⟨by decide, (dedupe_unique_first rsEx).2 recW (by decide)⟩

/-- C5: the records returned by `dedupe` carry pairwise-distinct `"sha256"`
metadata values. -/
theorem dedupe_hashes_distinct (records : List SnippetRecord) :
    (dedupe records).Pairwise
      (fun a b => dictLookup "sha256" a.metadata ≠ dictLookup "sha256" b.metadata) := by
  refine List.Pairwise.imp_of_mem ?_ (dedupeAux_pairwise_hash records [])
  intro a b ha hb hne heq
  apply hne
  obtain ⟨-, a0, -, -, hra, hma⟩ := dedupeAux_mem records [] a ha
  obtain ⟨-, b0, -, -, hrb, hmb⟩ := dedupeAux_mem records [] b hb
  have hla : dictLookup "sha256" a.metadata = some (MetaValue.str (sha256hex a.response)) := by
    rw [hma, hra, dictLookup_insert_self]
  have hlb : dictLookup "sha256" b.metadata = some (MetaValue.str (sha256hex b.response)) := by
    rw [hmb, hrb, dictLookup_insert_self]
  rw [hla, hlb] at heq
  simpa using heq

/-- A record whose metadata already contains the key `"sha256"`. -/
def recOld : SnippetRecord :=
  { prompt := "p", response := "alpha", metadata := [("sha256", MetaValue.str "old")] }

/-- C7 counterexample: for an input record whose metadata already contains
the key `"sha256"`, `dedupe` does not add a key: the pre-existing
`"sha256"` value is overwritten in place (`{**rec.metadata, "sha256":
digest}`), so the output metadata is not the input metadata with one added
key, and a pre-existing value changes. -/
theorem dedupe_metadata_counterexample :
    dictLookup "sha256" recOld.metadata = some (MetaValue.str "old") ∧
    dedupe [recOld] =
      [{ prompt := "p", response := "alpha",
         metadata := [("sha256", MetaValue.str (sha256hex "alpha"))] }] ∧
    sha256hex "alpha" ≠ "old" ∧
    ((dedupe [recOld]).all (fun r => r.metadata.length == recOld.metadata.length)) = true := by
  refine ⟨by decide, by decide, by decide, by decide⟩

/-- C7 (amended): records are immutable through deduplication except for
the content hash: every record `dedupe` retains copies the prompt and
response of an input record; every metadata key other than `"sha256"`
keeps its value; and provided the input metadata does not already contain
the key `"sha256"` (true of every record the collector and the CSV loader
create), the output metadata is exactly the input metadata with the single
appended key `"sha256"`. If the key is already present, its value is
overwritten in place instead. -/
theorem dedupe_frame (records : List SnippetRecord) :
    ∀ r ∈ dedupe records, ∃ r0 ∈ records,
      r.prompt = r0.prompt ∧ r.response = r0.response ∧
      (∀ q, q ≠ "sha256" → dictLookup q r.metadata = dictLookup q r0.metadata) ∧
      (dictHasKey "sha256" r0.metadata = false →
        r.metadata = r0.metadata ++ [("sha256", MetaValue.str (sha256hex r0.response))]) := by
  intro r hr
  obtain ⟨-, r0, hmem, hp, hresp, hm⟩ := dedupeAux_mem records [] r hr
  refine ⟨r0, hmem, hp, hresp, ?_, ?_⟩
  · intro q hq
    rw [hm]
    exact dictLookup_insert_ne _ q _ _ hq
  · intro hk
    rw [hm, dictInsert_not_hasKey _ _ _ hk]

/-- The second record of `rsEx` as enriched by `dedupe`. -/
def recW2 : SnippetRecord :=
  { prompt := "p2", response := "beta",
    metadata := [("sha256", MetaValue.str (sha256hex "beta"))] }

theorem dedupe_frame_witness :
    recW2 ∈ dedupe rsEx ∧
    ∃ r0 ∈ rsEx,
      recW2.prompt = r0.prompt ∧ recW2.response = r0.response ∧
      (∀ q, q ≠ "sha256" → dictLookup q recW2.metadata = dictLookup q r0.metadata) ∧
      (dictHasKey "sha256" r0.metadata = false →
        recW2.metadata = r0.metadata ++ [("sha256", MetaValue.str (sha256hex r0.response))]) :=
  ⟨by decide, dedupe_frame rsEx recW2 (by decide)⟩

/-- If no record of `l` has a digest already in `seen`, the digests of `l`
are pairwise distinct, and setting `"sha256"` to each record's digest
leaves its metadata unchanged, then the dedupe loop keeps `l` as it is. -/
theorem dedupeAux_noop :
    ∀ (l : List SnippetRecord) (seen : List String),
      (∀ r ∈ l, sha256hex r.response ∉ seen) →
      l.Pairwise (fun a b => sha256hex a.response ≠ sha256hex b.response) →
      (∀ r ∈ l, dictInsert "sha256" (MetaValue.str (sha256hex r.response)) r.metadata
        = r.metadata) →
      dedupeAux seen l = l := by
  intro l
  induction l with
  | nil => intro seen _ _ _; rfl
  | cons rec rest ih =>
    intro seen hseen hpair hmeta
    simp only [dedupeAux]
    rw [if_neg (hseen rec (List.mem_cons_self _ _)), hmeta rec (List.mem_cons_self _ _)]
    have htail : dedupeAux (sha256hex rec.response :: seen) rest = rest := by
      apply ih
      · intro r hrm hin
        rcases List.mem_cons.mp hin with he | hin2
        · exact (List.pairwise_cons.mp hpair).1 r hrm he.symm
        · exact hseen r (List.mem_cons_of_mem _ hrm) hin2
      · exact (List.pairwise_cons.mp hpair).2
      · intro r hrm
        exact hmeta r (List.mem_cons_of_mem _ hrm)
    rw [htail]

/-- C9: `dedupe` is idempotent: a second application removes no records
and leaves every record (prompt, response, and metadata, including the
already-present `"sha256"` binding) unchanged. -/
theorem dedupe_idempotent (records : List SnippetRecord) :
    dedupe (dedupe records) = dedupe records := by
  show dedupeAux [] (dedupe records) = dedupe records
  apply dedupeAux_noop
  · intro r _ hx
    simp at hx
  · exact dedupeAux_pairwise_hash records []
  · intro r hr
    obtain ⟨-, r0, -, -, hresp, hm⟩ := dedupeAux_mem records [] r hr
    rw [hm, hresp]
    exact dictInsert_idem _ _ _

/-! ## Helper lemmas: stripping and heads -/

theorem pyRstrip_isPrefixOf (p : Char → Bool) (l : List Char) : pyRstrip p l <+: l := by
  have h : l.reverse.dropWhile p <:+ l.reverse := List.dropWhile_suffix p
  rw [← List.reverse_suffix]
  simpa [pyRstrip] using h

theorem prefix_head_eq {α : Type} {l1 l2 : List α} (h : l1 <+: l2) (hne : l1 ≠ []) :
    l2.head? = l1.head? := by
  obtain ⟨u, rfl⟩ := h
  cases l1 with
  | nil => cases hne rfl
  | cons a l => rfl

theorem strip_head_not_bom (ls : List Char)
    (hfirst : (pyLstrip isPySpace ls).head? ≠ some BOM)
    (hne : pyRstrip isPySpace (pyLstrip isPySpace ls) ≠ []) :
    (pyRstrip isPySpace (pyRstrip isPySpace (pyLstrip isPySpace ls)) ++
      [Char.ofNat 10]).head? ≠ some BOM := by
  rcases hAe : pyRstrip isPySpace (pyRstrip isPySpace (pyLstrip isPySpace ls)) with _ | ⟨c, A2⟩
  · decide
  · intro hcon
    have h1 : (pyRstrip isPySpace (pyLstrip isPySpace ls)).head?
        = (pyRstrip isPySpace (pyRstrip isPySpace (pyLstrip isPySpace ls))).head? :=
      prefix_head_eq (pyRstrip_isPrefixOf _ _) (by rw [hAe]; simp)
    have h2 : (pyLstrip isPySpace ls).head?
        = (pyRstrip isPySpace (pyLstrip isPySpace ls)).head? :=
      prefix_head_eq (pyRstrip_isPrefixOf _ _) hne
    apply hfirst
    rw [h2, h1, hAe]
    simpa using hcon

/-- C8 counterexample: the text of this file begins with a byte-order mark,
a record is produced for it, and its response starts with a BOM: the code
strips only the leading run of U+FEFF characters, and `str.strip()` does
not remove U+FEFF, so a BOM standing right after leading whitespace
survives as the first response character. -/
theorem snippetResponse_bom_counterexample :
    "﻿ ﻿a".data.head? = some BOM ∧
    snippetResponse "﻿ ﻿a" = some "﻿a\n" ∧
    "﻿a\n".data.head? = some BOM := by
  refine ⟨by decide, by decide, by decide⟩

/-- C8 (amended): for every input file whose text begins with a byte-order
mark, provided the first non-whitespace character remaining after the
leading run of BOM characters is stripped is not itself a BOM (true in
particular when the file carries a single leading BOM), the record
produced by `iterate_snippets` has a response that does not start with a
BOM character. -/
theorem snippetResponse_no_bom (raw resp : String)
    (_hbom : raw.data.head? = some BOM)
    (hfirst : (pyLstrip isPySpace (raw.data.dropWhile (fun c => c == BOM))).head? ≠ some BOM)
    (hresp : snippetResponse raw = some resp) :
    resp.data.head? ≠ some BOM := by
  unfold snippetResponse at hresp
  by_cases hemp :
      pyRstrip isPySpace (pyLstrip isPySpace (raw.data.dropWhile (fun c => c == BOM))) = []
  · rw [if_pos hemp] at hresp
    exact absurd hresp (by simp)
  · rw [if_neg hemp] at hresp
    have hr := (Option.some.inj hresp).symm
    rw [hr]
    exact strip_head_not_bom (raw.data.dropWhile (fun c => c == BOM)) hfirst hemp

theorem snippetResponse_no_bom_witness :
    "﻿abc".data.head? = some BOM ∧
    (pyLstrip isPySpace ("﻿abc".data.dropWhile (fun c => c == BOM))).head? ≠ some BOM ∧
    snippetResponse "﻿abc" = some "abc\n" ∧
    "abc\n".data.head? ≠ some BOM :=
  ⟨by decide, by decide, by decide,
   snippetResponse_no_bom "﻿abc" "abc\n" (by decide) (by decide) (by decide)⟩

/-- C10: `to_harmony` returns a structure whose messages field is a list of
exactly three messages with roles system, user, and assistant in that
order; the user message content is the whitespace-stripped prompt and the
assistant message content is the whitespace-stripped response. -/
theorem to_harmony_messages (p r : String) :
    (to_harmony p r).messages.length = 3 ∧
    (to_harmony p r).messages.map Message.role = ["system", "user", "assistant"] ∧
    ((to_harmony p r).messages.map Message.content)[1]? = some (pyStripStr p) ∧
    ((to_harmony p r).messages.map Message.content)[2]? = some (pyStripStr r) :=
  ⟨rfl, rfl, rfl, rfl⟩
